import Mathlib

/-!
Verification development for the SMS personal-finance dashboard
(finance_dashboard.py).  The transaction pipeline, its amount extractor,
type tagger, aggregator and CSV export are embedded as executable Lean
functions; monetary values are modelled as exact rationals, and the code
paths that can raise a Python exception are modelled with Except.
The externally trained category classifier is treated as an opaque
function parameter (string to label), as the design document prescribes.
String case folding, whitespace and digits are modelled at the ASCII
level, which covers every behaviour the claims mention.
-/

deriving instance DecidableEq for Except

/-- One uploaded CSV row: the mandatory SMS text plus the values of any
additional columns, which the dashboard keeps in the frame untouched.
Additional columns are modelled as sitting after the SMS column. -/
structure InputRow where
  sms : String
  extras : List String
deriving DecidableEq

/-- An uploaded table: the names of the additional columns beyond SMS,
and the rows. -/
structure InputTable where
  extraCols : List String
  rows : List InputRow
deriving DecidableEq

/-- An enriched transaction record, as produced by the pipeline: the
normalized message, the passed-through extra column values, and the
derived amount, predicted category and transaction type. -/
structure Record where
  sms : String
  extras : List String
  amount : Rat
  category : String
  ttype : String
deriving DecidableEq

/-- Python str.lower, modelled characterwise. -/
def strLower (s : String) : String := ⟨s.data.map Char.toLower⟩

/-- Remove leading and trailing whitespace from a character list. -/
def trimList (l : List Char) : List Char :=
  ((l.dropWhile Char.isWhitespace).reverse.dropWhile Char.isWhitespace).reverse

/-- Python str.strip, modelled characterwise. -/
def strTrim (s : String) : String := ⟨trimList s.data⟩

/-- Characters matched by the regex class with digits and the comma
separator. -/
def digitComma (c : Char) : Bool := c.isDigit || c == ','

/-- The capture group of the amount regex, read greedily from the start
of s: a maximal run of digits and commas, then an optional dot followed
by a maximal run of digits. -/
def grabGroup (s : List Char) : List Char :=
  match s.dropWhile digitComma with
  | c :: r =>
    if c == '.' then
      s.takeWhile digitComma ++ c :: r.takeWhile (fun x => x.isDigit)
    else s.takeWhile digitComma
  | [] => s.takeWhile digitComma

/-- Attempt to match the currency-marker alternation (inr, aed or the
rupee sign, case-insensitively) at the head of s; on success return the
remaining characters.  Case-insensitivity is modelled with Char.toLower;
the exotic Unicode case equivalences of Python re are out of scope. -/
def matchMarker : List Char → Option (List Char)
  | [] => none
  | a :: rest =>
    if a == '₹' then some rest
    else
      match rest with
      | b :: c :: rest2 =>
        if (a.toLower == 'i' && b.toLower == 'n' && c.toLower == 'r') ||
           (a.toLower == 'a' && b.toLower == 'e' && c.toLower == 'd') then
          some rest2
        else none
      | _ => none

/-- After the marker, match an optional single whitespace character and
then the numeric group, mirroring the regex backtracking: the optional
whitespace is consumed only when a digit-or-comma character follows. -/
def matchNum : List Char → Option (List Char)
  | [] => none
  | c :: rest =>
    if c.isWhitespace then
      match rest with
      | d :: _ => if digitComma d then some (grabGroup rest) else none
      | [] => none
    else if digitComma c then some (grabGroup (c :: rest))
    else none

/-- Attempt the whole pattern (marker, optional whitespace, numeric
group) at the head of s, returning the capture group. -/
def matchAt (s : List Char) : Option (List Char) :=
  match matchMarker s with
  | some after => matchNum after
  | none => none

/-- re.search: try the pattern at every position, left to right, and
return the capture group of the leftmost successful match. -/
def searchGroup : List Char → Option (List Char)
  | [] => none
  | c :: rest =>
    match matchAt (c :: rest) with
    | some g => some g
    | none => searchGroup rest

/-- Value of a string of ASCII digits, most significant first. -/
def natOfDigits (l : List Char) : Nat :=
  l.foldl (fun n c => 10 * n + (c.toNat - 48)) 0

/-- The digits after the dot of the matched group, if any. -/
def fracPart (dot : List Char) : List Char :=
  match dot with
  | '.' :: r => r
  | _ => []

/-- Digit decomposition of the captured group with the commas removed:
the integer digits and the fractional digits.  Python float() raises
ValueError when no digit is left after stripping the commas (for
example on the group made of a single comma), modelled as an error. -/
def parseParts (g : List Char) : Except Unit (List Char × List Char) :=
  if (g.filter (fun c => !(c == ','))).any (fun c => c.isDigit) then
    Except.ok ((g.filter (fun c => !(c == ','))).takeWhile (fun c => c.isDigit),
      fracPart ((g.filter (fun c => !(c == ','))).dropWhile (fun c => c.isDigit)))
  else Except.error ()

/-- The numeric value float() gives to a decomposed decimal literal:
the integer part plus the fractional part scaled down. -/
def decVal (p : List Char × List Char) : Rat :=
  (natOfDigits p.1 : Rat) + (natOfDigits p.2 : Rat) / (10 : Rat) ^ p.2.length

/-- extract_amount from finance_dashboard.py: search the text for a
currency marker followed by an optional whitespace and a numeric
literal; return the first match converted to a number, none when the
pattern occurs nowhere, and an error when the conversion raises. -/
def extract_amount (text : String) : Except Unit (Option Rat) :=
  match searchGroup text.toList with
  | none => Except.ok none
  | some g =>
    match parseParts g with
    | Except.ok p => Except.ok (some (decVal p))
    | Except.error e => Except.error e

/-- Substring test on character lists: the keyword occurs contiguously
somewhere in the text, as the Python in operator on str. -/
def strHas : List Char → List Char → Bool
  | [], kw => kw.isEmpty
  | c :: rest, kw => kw.isPrefixOf (c :: rest) || strHas rest kw

/-- Python substring containment on strings. -/
def containsSub (t kw : String) : Bool := strHas t.toList kw.toList

/-- The debit keyword list of detect_type, in source order. -/
def debitKws : List String := ["debited", "spent", "purchase", "paid", "withdrawal"]

/-- The credit keyword list of detect_type, in source order. -/
def creditKws : List String := ["credited", "received", "refund", "deposit", "salary"]

/-- detect_type from finance_dashboard.py: lower-case the text, return
Debit when any debit keyword occurs, else Credit when any credit
keyword occurs, else Unknown. -/
def detect_type (text : String) : String :=
  if debitKws.any (fun k => containsSub (strLower text) k) then "Debit"
  else if creditKws.any (fun k => containsSub (strLower text) k) then "Credit"
  else "Unknown"

/-- Message normalization of the pipeline: lower-case, then strip the
surrounding whitespace. -/
def normalizeMsg (s : String) : String := strTrim (strLower s)

/-- A row with its message normalized. -/
def normRow (r : InputRow) : InputRow := { r with sms := normalizeMsg r.sms }

/-- Apply the amount extractor to every row in order, propagating the
first raised exception, as the column-wise apply does. -/
def extractAll : List InputRow → Except Unit (List (InputRow × Option Rat))
  | [] => Except.ok []
  | r :: rs =>
    match extract_amount r.sms with
    | Except.error e => Except.error e
    | Except.ok a =>
      match extractAll rs with
      | Except.error e => Except.error e
      | Except.ok rest => Except.ok ((r, a) :: rest)

/-- The null-amount handling of the pipeline: when every extracted
amount is null, keep all rows with amount zero; otherwise drop exactly
the rows whose amount is null. -/
def keepRows (pairs : List (InputRow × Option Rat)) : List (InputRow × Rat) :=
  if pairs.all (fun p => p.2.isNone) then pairs.map (fun p => (p.1, 0))
  else pairs.filterMap (fun p => p.2.map (fun a => (p.1, a)))

/-- Build one enriched record from a kept row: the classifier is called
on the normalized message, and the type tagger on the same text. -/
def mkRecord (classify : String → String) (p : InputRow × Rat) : Record :=
  { sms := p.1.sms, extras := p.1.extras, amount := p.2,
    category := classify p.1.sms, ttype := detect_type p.1.sms }

/-- The transaction pipeline: normalize every message, extract the
amounts (propagating a raised conversion error), apply the null-amount
policy, then attach the predicted category and the detected type. -/
def pipeline (classify : String → String) (t : InputTable) :
    Except Unit (List Record) :=
  match extractAll (t.rows.map normRow) with
  | Except.error e => Except.error e
  | Except.ok pairs => Except.ok ((keepRows pairs).map (mkRecord classify))

/-- The two sidebar multi-select filters: allowed types and categories. -/
structure Selection where
  types : List String
  cats : List String

/-- Keep the records whose type and category are both selected. -/
def filterRecs (sel : Selection) (l : List Record) : List Record :=
  l.filter (fun r => sel.types.contains r.ttype && sel.cats.contains r.category)

/-- Sum of the amounts of the filtered Debit records. -/
def total_spent (l : List Record) : Rat :=
  ((l.filter (fun r => r.ttype == "Debit")).map (fun r => r.amount)).sum

/-- Sum of the amounts of the filtered Credit records. -/
def total_credited (l : List Record) : Rat :=
  ((l.filter (fun r => r.ttype == "Credit")).map (fun r => r.amount)).sum

/-- Summed amount of one category over the given records. -/
def catSum (l : List Record) (c : String) : Rat :=
  ((l.filter (fun r => r.category == c)).map (fun r => r.amount)).sum

/-- Lexicographic comparison of character lists by code point, the
order Python uses on strings. -/
def listLt : List Char → List Char → Bool
  | [], [] => false
  | [], _ :: _ => true
  | _ :: _, [] => false
  | a :: as, b :: bs =>
    if a.toNat < b.toNat then true
    else if b.toNat < a.toNat then false
    else listLt as bs

/-- Lexicographic string comparison by code point. -/
def strLt (a b : String) : Bool := listLt a.data b.data

/-- Insert a string into an ascending list, keeping it sorted. -/
def insertStr (a : String) : List String → List String
  | [] => [a]
  | b :: bs => if strLt a b then a :: b :: bs else b :: insertStr a bs

/-- Ascending insertion sort on strings. -/
def sortStrs : List String → List String
  | [] => []
  | a :: as => insertStr a (sortStrs as)

/-- The distinct values of a list, first occurrence kept. -/
def uniq : List String → List String
  | [] => []
  | a :: as => a :: (uniq as).filter (fun b => !(b == a))

/-- First category attaining the maximal summed amount, scanning the
candidate list and replacing the current best only on a strictly
larger sum, as idxmax does on the sorted group-by index. -/
def pickTop (l : List Record) : List String → String → String
  | [], best => best
  | c :: cs, best =>
    if catSum l best < catSum l c then pickTop l cs c else pickTop l cs best

/-- top_cat of the dashboard: the sentinel on an empty filtered table,
otherwise the category with the maximal summed amount over the sorted
distinct categories, ties broken by the lexicographically first one,
as idxmax on the sorted group-by index gives. -/
def top_cat (l : List Record) : String :=
  if l.isEmpty then "N/A"
  else
    match sortStrs (uniq (l.map (fun r => r.category))) with
    | [] => "N/A"
    | c :: cs => pickTop l cs c

/-- The advisory bands of the Smart Savings Advisor. -/
inductive Band where
  | high
  | mid
  | healthy
deriving DecidableEq

/-- The guarded ratio block: only when total_credited is positive does
the dashboard compute the spending ratio and pick an advisory band;
otherwise nothing is computed at all. -/
def advisory (ts tc : Rat) : Option (Rat × Band) :=
  if 0 < tc then
    some (ts / tc,
      if tc * (0.8 : Rat) < ts then Band.high
      else if tc * (0.6 : Rat) < ts then Band.mid
      else Band.healthy)
  else none

/-- One cell of the exported CSV: a text cell or a numeric cell. -/
inductive Cell where
  | str : String → Cell
  | num : Rat → Cell
deriving DecidableEq

/-- Header of the on-demand CSV export.  to_csv serializes every column
of the filtered frame: the original upload columns in order, then the
three derived columns in the order they were assigned (Amount, then
Predicted_Category, then Type). -/
def exportHeader (t : InputTable) : List String :=
  "SMS" :: t.extraCols ++ ["Amount", "Predicted_Category", "Type"]

/-- One exported row, cells in the header order. -/
def exportRow (r : Record) : List Cell :=
  Cell.str r.sms :: r.extras.map Cell.str ++
    [Cell.num r.amount, Cell.str r.category, Cell.str r.ttype]

/-- The exported body: one row per filtered record. -/
def exportRows (l : List Record) : List (List Cell) := l.map exportRow

/-- Whether an already normalized row yields an extractable amount. -/
def extOk (rn : InputRow) : Bool :=
  match extract_amount rn.sms with
  | Except.ok (some _) => true
  | _ => false

/-- Whether a raw upload row has an extractable (non-null) amount after
the normalization the pipeline applies first. -/
def hasAmount (r : InputRow) : Bool := extOk (normRow r)

/-- The keyword kw occurs as a contiguous substring of t. -/
def Occurs (kw t : String) : Prop :=
  ∃ l r, t.toList = l ++ kw.toList ++ r

/-- Character lists accepted by the marker alternation of the regex. -/
def isMarkerTok (mk : List Char) : Bool :=
  match mk with
  | [c] => c == '₹'
  | [a, b, c] =>
    (a.toLower == 'i' && b.toLower == 'n' && c.toLower == 'r') ||
    (a.toLower == 'a' && b.toLower == 'e' && c.toLower == 'd')
  | _ => false

/-- A sample filled record list used to instantiate aggregate theorems. -/
def sampleRecs : List Record :=
  [⟨"paid inr 5", [], 5, "Food", "Debit"⟩]

/-- A sample upload with one extra column beyond SMS. -/
def tblC2 : InputTable := ⟨["Date"], [⟨"paid inr 50", ["2024-01-01"]⟩]⟩

/-- The enriched record of the tblC2 upload. -/
def recsC2 : List Record := [⟨"paid inr 50", ["2024-01-01"], 50, "Misc", "Debit"⟩]

theorem isPrefixOf_iff_ex : ∀ (kw t : List Char), kw.isPrefixOf t = true ↔ ∃ r, t = kw ++ r
  | [], t => by simp [List.isPrefixOf]
  | a :: as, [] => by simp [List.isPrefixOf]
  | a :: as, b :: bs => by
    simp only [List.isPrefixOf, Bool.and_eq_true, beq_iff_eq]
    constructor
    · rintro ⟨h1, h2⟩
      obtain ⟨r, hr⟩ := (isPrefixOf_iff_ex as bs).mp h2
      exact ⟨r, by simp [h1, hr]⟩
    · rintro ⟨r, hr⟩
      injection hr with h1 h2
      exact ⟨h1.symm, (isPrefixOf_iff_ex as bs).mpr ⟨r, h2⟩⟩

theorem strHas_iff : ∀ (t kw : List Char), strHas t kw = true ↔ ∃ l r, t = l ++ kw ++ r
  | [], kw => by
    simp only [strHas, List.isEmpty_iff]
    constructor
    · rintro rfl
      exact ⟨[], [], rfl⟩
    · rintro ⟨l, r, hlr⟩
      have h0 : l ++ kw ++ r = [] := hlr.symm
      exact (List.append_eq_nil.mp (List.append_eq_nil.mp h0).1).2
  | c :: rest, kw => by
    simp only [strHas, Bool.or_eq_true]
    constructor
    · rintro (h | h)
      · obtain ⟨r, hr⟩ := (isPrefixOf_iff_ex kw (c :: rest)).mp h
        exact ⟨[], r, by simp [hr]⟩
      · obtain ⟨l, r, hlr⟩ := (strHas_iff rest kw).mp h
        exact ⟨c :: l, r, by simp [hlr]⟩
    · rintro ⟨l, r, hlr⟩
      match l, hlr with
      | [], hlr =>
        exact Or.inl ((isPrefixOf_iff_ex kw (c :: rest)).mpr ⟨r, by simpa using hlr⟩)
      | x :: l2, hlr =>
        have hrest : rest = l2 ++ kw ++ r := by
          have := hlr
          simp only [List.cons_append] at this
          injection this with h1 h2
        exact Or.inr ((strHas_iff rest kw).mpr ⟨l2, r, hrest⟩)

theorem occurs_of_contains {t kw : String} (h : containsSub t kw = true) : Occurs kw t :=
  (strHas_iff t.toList kw.toList).mp h

theorem any_contains_iff (t : String) (kws : List String) :
    kws.any (fun k => containsSub t k) = true ↔ ∃ kw ∈ kws, Occurs kw t := by
  simp only [List.any_eq_true]
  constructor
  · rintro ⟨kw, hmem, hc⟩
    exact ⟨kw, hmem, (strHas_iff t.toList kw.toList).mp hc⟩
  · rintro ⟨kw, hmem, ho⟩
    exact ⟨kw, hmem, (strHas_iff t.toList kw.toList).mpr ho⟩

/-- C3: on an empty filtered selection the aggregator yields the
sentinel top category and zero totals; being a total Lean function it
can raise nothing. -/
theorem C3_empty_aggregates (recs : List Record) (sel : Selection)
    (h : filterRecs sel recs = []) :
    total_spent (filterRecs sel recs) = 0 ∧
    total_credited (filterRecs sel recs) = 0 ∧
    top_cat (filterRecs sel recs) = "N/A" := by
  rw [h]
  exact ⟨rfl, rfl, rfl⟩

theorem C3_witness :
    total_spent (filterRecs (Selection.mk [] []) sampleRecs) = 0 ∧
    total_credited (filterRecs (Selection.mk [] []) sampleRecs) = 0 ∧
    top_cat (filterRecs (Selection.mk [] []) sampleRecs) = "N/A" :=
  C3_empty_aggregates sampleRecs (Selection.mk [] []) rfl

/-- C4: the ratio block of the advisor is entered exactly when the
credited total is positive; at zero no ratio value is produced, so the
division is never executed. -/
theorem C4_ratio_guard (recs : List Record) (sel : Selection) :
    (total_credited (filterRecs sel recs) = 0 →
      advisory (total_spent (filterRecs sel recs))
        (total_credited (filterRecs sel recs)) = none) ∧
    (0 < total_credited (filterRecs sel recs) →
      ∃ b, advisory (total_spent (filterRecs sel recs))
        (total_credited (filterRecs sel recs)) =
          some (total_spent (filterRecs sel recs) /
            total_credited (filterRecs sel recs), b)) := by
  constructor
  · intro h
    simp [advisory, h]
  · intro h
    exact ⟨_, by unfold advisory; rw [if_pos h]⟩

theorem C4_witness :
    advisory (total_spent (filterRecs (Selection.mk [] []) sampleRecs))
      (total_credited (filterRecs (Selection.mk [] []) sampleRecs)) = none :=
  (C4_ratio_guard sampleRecs (Selection.mk [] [])).1 rfl

/-- C6: the claim that the extractor never raises is contradicted by
the code: on a marker followed by a numeric group made of a comma
alone, float() is applied to an empty string and raises ValueError,
modelled here as the error outcome. -/
theorem C6_extract_raises : extract_amount ("inr ,") = Except.error () := rfl

/-- C7: the type tagger gives debit keywords priority: any debit
keyword as substring of the lower-cased text yields Debit even when a
credit keyword also occurs; with no debit keyword a credit keyword
yields Credit; with neither it yields Unknown. -/
theorem C7_detect_type (s : String) :
    ((∃ kw ∈ debitKws, Occurs kw (strLower s)) → detect_type s = "Debit") ∧
    ((¬ ∃ kw ∈ debitKws, Occurs kw (strLower s)) →
      (∃ kw ∈ creditKws, Occurs kw (strLower s)) → detect_type s = "Credit") ∧
    ((¬ ∃ kw ∈ debitKws, Occurs kw (strLower s)) →
      (¬ ∃ kw ∈ creditKws, Occurs kw (strLower s)) → detect_type s = "Unknown") := by
  refine ⟨?_, ?_, ?_⟩
  · intro h
    have hb : debitKws.any (fun k => containsSub (strLower s) k) = true :=
      (any_contains_iff (strLower s) debitKws).mpr h
    simp [detect_type, hb]
  · intro hnd hc
    have hb : debitKws.any (fun k => containsSub (strLower s) k) = false := by
      cases hx : debitKws.any (fun k => containsSub (strLower s) k) with
      | false => rfl
      | true => exact absurd ((any_contains_iff (strLower s) debitKws).mp hx) hnd
    have hc2 : creditKws.any (fun k => containsSub (strLower s) k) = true :=
      (any_contains_iff (strLower s) creditKws).mpr hc
    simp [detect_type, hb, hc2]
  · intro hnd hnc
    have hb : debitKws.any (fun k => containsSub (strLower s) k) = false := by
      cases hx : debitKws.any (fun k => containsSub (strLower s) k) with
      | false => rfl
      | true => exact absurd ((any_contains_iff (strLower s) debitKws).mp hx) hnd
    have hc2 : creditKws.any (fun k => containsSub (strLower s) k) = false := by
      cases hx : creditKws.any (fun k => containsSub (strLower s) k) with
      | false => rfl
      | true => exact absurd ((any_contains_iff (strLower s) creditKws).mp hx) hnc
    simp [detect_type, hb, hc2]

theorem C7_witness : detect_type ("salary credited but also spent on groceries") = "Debit" :=
  (C7_detect_type ("salary credited but also spent on groceries")).1
    ⟨"spent", by decide, occurs_of_contains (by decide)⟩

/-- C8: the above-80 branch is strict: a spent total of 800 against
1000 credited gives the exact ratio 0.8 and the 60-80 band, while 801
gives the above-80 warning. -/
theorem C8_band_boundary :
    advisory ((800 : Rat)) ((1000 : Rat)) = some (((0.8 : Rat)), Band.mid) ∧
    advisory ((801 : Rat)) ((1000 : Rat)) =
      some (((801 : Rat) / (1000 : Rat)), Band.high) := by
  constructor
  · unfold advisory
    rw [if_pos (by norm_num), if_neg (by norm_num), if_pos (by norm_num)]
    norm_num
  · unfold advisory
    rw [if_pos (by norm_num), if_pos (by norm_num)]

/-- C2 counterexample: the export serializes the whole filtered frame,
so with an extra upload column the header has five columns, and even
with no extra column the derived columns come out in assignment order
with Predicted_Category before Type, not the claimed order. -/
theorem C2_counterexample :
    exportHeader tblC2 ≠ ["SMS", "Amount", "Type", "Predicted_Category"] ∧
    (exportHeader tblC2).length ≠ 4 ∧
    exportHeader (InputTable.mk [] []) ≠ ["SMS", "Amount", "Type", "Predicted_Category"] :=
  ⟨by decide, by decide, by decide⟩

/-- C2 amended: the export has the upload columns in their original
order followed by Amount, Predicted_Category and Type, one row per
filtered transaction, and every exported row has one cell per header
column. -/
theorem C2_export_amended (t : InputTable) (recs : List Record) (sel : Selection)
    (hw : ∀ rec ∈ recs, rec.extras.length = t.extraCols.length) :
    exportHeader t = "SMS" :: t.extraCols ++ ["Amount", "Predicted_Category", "Type"] ∧
    (exportRows (filterRecs sel recs)).length = (filterRecs sel recs).length ∧
    ∀ row ∈ exportRows (filterRecs sel recs), row.length = (exportHeader t).length := by
  refine ⟨rfl, by simp [exportRows], ?_⟩
  intro row hrow
  simp only [exportRows, List.mem_map] at hrow
  obtain ⟨rec, hrec, hrow⟩ := hrow
  subst hrow
  have hmem : rec ∈ recs := by
    simp only [filterRecs] at hrec
    exact (List.mem_filter.mp hrec).1
  have hlen := hw rec hmem
  simp [exportRow, exportHeader, hlen]

theorem C2_witness :
    exportHeader tblC2 = "SMS" :: tblC2.extraCols ++ ["Amount", "Predicted_Category", "Type"] ∧
    (exportRows (filterRecs (Selection.mk ["Debit"] ["Misc"]) recsC2)).length =
      (filterRecs (Selection.mk ["Debit"] ["Misc"]) recsC2).length ∧
    ∀ row ∈ exportRows (filterRecs (Selection.mk ["Debit"] ["Misc"]) recsC2),
      row.length = (exportHeader tblC2).length :=
  C2_export_amended tblC2 recsC2 (Selection.mk ["Debit"] ["Misc"]) (by decide)

theorem extractAll_ok : ∀ (l : List InputRow) (pairs : List (InputRow × Option Rat)),
    extractAll l = Except.ok pairs →
    pairs.map Prod.fst = l ∧ ∀ p ∈ pairs, extract_amount p.1.sms = Except.ok p.2 := by
  intro l
  induction l with
  | nil =>
    intro pairs h
    simp only [extractAll, Except.ok.injEq] at h
    subst h
    simp
  | cons r rs ih =>
    intro pairs h
    cases hext : extract_amount r.sms with
    | error e =>
      simp only [extractAll, hext] at h
      exact Except.noConfusion h
    | ok a =>
      cases hrest : extractAll rs with
      | error e =>
        simp only [extractAll, hext, hrest] at h
        exact Except.noConfusion h
      | ok rest =>
        simp only [extractAll, hext, hrest, Except.ok.injEq] at h
        subst h
        obtain ⟨ih1, ih2⟩ := ih rest hrest
        constructor
        · simp [ih1]
        · intro p hp
          rcases List.mem_cons.mp hp with hp | hp
          · subst hp
            exact hext
          · exact ih2 p hp

theorem extractAll_total : ∀ (l : List InputRow),
    (∀ r ∈ l, extract_amount r.sms ≠ Except.error ()) →
    ∃ pairs, extractAll l = Except.ok pairs := by
  intro l
  induction l with
  | nil => exact fun _ => ⟨[], rfl⟩
  | cons r rs ih =>
    intro h
    obtain ⟨rest, hrest⟩ := ih (fun x hx => h x (List.mem_cons_of_mem _ hx))
    cases hext : extract_amount r.sms with
    | error e =>
      cases e
      exact absurd hext (h r (List.mem_cons_self r rs))
    | ok a =>
      exact ⟨(r, a) :: rest, by simp [extractAll, hext, hrest]⟩

theorem keepRows_all_none (pairs : List (InputRow × Option Rat))
    (h : ∀ p ∈ pairs, p.2 = none) :
    keepRows pairs = pairs.map (fun p => (p.1, (0 : Rat))) := by
  unfold keepRows
  rw [if_pos]
  exact List.all_eq_true.mpr (fun p hp => by simp [h p hp])

theorem keepRows_some (pairs : List (InputRow × Option Rat))
    (p0 : InputRow × Option Rat) (hp0 : p0 ∈ pairs) (h : p0.2.isSome = true) :
    keepRows pairs = pairs.filterMap (fun p => p.2.map (fun a => (p.1, a))) := by
  unfold keepRows
  rw [if_neg]
  intro hall
  have hnone := List.all_eq_true.mp hall p0 hp0
  obtain ⟨a, ha⟩ := Option.isSome_iff_exists.mp h
  rw [ha] at hnone
  simp at hnone

theorem filterMap_pairs_length (pairs : List (InputRow × Option Rat)) :
    (pairs.filterMap (fun p => p.2.map (fun a => (p.1, a)))).length =
      pairs.countP (fun p => p.2.isSome) := by
  induction pairs with
  | nil => rfl
  | cons p ps ih =>
    cases hp : p.2 with
    | none => simp [List.filterMap_cons, List.countP_cons, hp, ih]
    | some a => simp [List.filterMap_cons, List.countP_cons, hp, ih]

theorem keepRows_fst_mem (pairs : List (InputRow × Option Rat)) (q : InputRow × Rat)
    (hq : q ∈ keepRows pairs) : q.1 ∈ pairs.map Prod.fst := by
  unfold keepRows at hq
  by_cases hall : pairs.all (fun p => p.2.isNone) = true
  · rw [if_pos hall] at hq
    obtain ⟨p, hp, hpe⟩ := List.mem_map.mp hq
    rw [← hpe]
    exact List.mem_map_of_mem Prod.fst hp
  · rw [if_neg hall] at hq
    obtain ⟨p, hp, hpe⟩ := List.mem_filterMap.mp hq
    cases h2 : p.2 with
    | none =>
      rw [h2] at hpe
      simp at hpe
    | some a =>
      rw [h2] at hpe
      simp only [Option.map_some'] at hpe
      injection hpe with hpe
      rw [← hpe]
      exact List.mem_map_of_mem Prod.fst hp

theorem total_spent_zero (l : List Record) (h : ∀ rec ∈ l, rec.amount = 0) :
    total_spent l = 0 := by
  unfold total_spent
  apply List.sum_eq_zero
  intro x hx
  obtain ⟨rec, hrec, he⟩ := List.mem_map.mp hx
  rw [← he]
  exact h rec (List.mem_filter.mp hrec).1

theorem total_credited_zero (l : List Record) (h : ∀ rec ∈ l, rec.amount = 0) :
    total_credited l = 0 := by
  unfold total_credited
  apply List.sum_eq_zero
  intro x hx
  obtain ⟨rec, hrec, he⟩ := List.mem_map.mp hx
  rw [← he]
  exact h rec (List.mem_filter.mp hrec).1

/-- A one-row upload whose message makes float() raise inside the
extractor, so the pipeline aborts with an exception. -/
def tblC1bad : InputTable := ⟨[], [⟨"inr ,", []⟩]⟩

/-- A two-row upload with one extractable amount and one row without. -/
def tblC1 : InputTable := ⟨[], [⟨"recharge paid inr 100", []⟩, ⟨"hello world", []⟩]⟩

/-- An upload whose single message has no extractable amount. -/
def tblC10 : InputTable := ⟨[], [⟨"hello there", []⟩]⟩

/-- The upload behind the export-normalization witness. -/
def tblC9 : InputTable := ⟨[], [⟨" PAID INR 20 ", []⟩]⟩

/-- The single enriched record the pipeline produces from tblC9. -/
def recC9 : Record :=
  ⟨"paid inr 20", [], decVal (String.toList ("20"), []), "Misc", "Debit"⟩

/-- C1 counterexample: on the upload whose only row is the message with
a marker followed by a bare comma, the claimed row-count dichotomy is
vacuous because the pipeline produces no output at all: the float()
conversion raises, so there is no output table whose row count could
equal the input row count. -/
theorem C1_counterexample :
    pipeline (fun _ => "Misc") tblC1bad = Except.error () ∧
    ¬ ∃ out, pipeline (fun _ => "Misc") tblC1bad = Except.ok out := by
  constructor
  · rfl
  · rintro ⟨out, hout⟩
    rw [show pipeline (fun _ => "Misc") tblC1bad = Except.error () from rfl] at hout
    exact Except.noConfusion hout

/-- C1 amended: on every upload on which no row makes the extractor
raise, the pipeline succeeds, and its output row count equals the
count of rows with an extractable amount when at least one row has
one, while with no extractable amount anywhere all rows are kept and
every record amount is zero. -/
theorem C1_pipeline_amended (classify : String → String) (t : InputTable)
    (h : ∀ r ∈ t.rows, extract_amount (normalizeMsg r.sms) ≠ Except.error ()) :
    ∃ out, pipeline classify t = Except.ok out ∧
      ((∃ r ∈ t.rows, hasAmount r = true) → out.length = t.rows.countP hasAmount) ∧
      ((∀ r ∈ t.rows, hasAmount r = false) →
        out.length = t.rows.length ∧ ∀ rec ∈ out, rec.amount = 0) := by
  have h2 : ∀ rn ∈ t.rows.map normRow, extract_amount rn.sms ≠ Except.error () := by
    intro rn hrn
    obtain ⟨r, hr, hrn⟩ := List.mem_map.mp hrn
    subst hrn
    exact h r hr
  obtain ⟨pairs, hpairs⟩ := extractAll_total (t.rows.map normRow) h2
  obtain ⟨hfst, hvals⟩ := extractAll_ok (t.rows.map normRow) pairs hpairs
  have hmem : ∀ p ∈ pairs, ∃ r ∈ t.rows, p.1 = normRow r := by
    intro p hp
    have hm : p.1 ∈ pairs.map Prod.fst := List.mem_map_of_mem Prod.fst hp
    rw [hfst] at hm
    obtain ⟨r, hr, he⟩ := List.mem_map.mp hm
    exact ⟨r, hr, he.symm⟩
  have hiff : ∀ p ∈ pairs, p.2.isSome = extOk p.1 := by
    intro p hp
    have hv := hvals p hp
    cases h2 : p.2 with
    | none => simp [extOk, hv, h2]
    | some a => simp [extOk, hv, h2]
  refine ⟨(keepRows pairs).map (mkRecord classify), by simp [pipeline, hpairs], ?_, ?_⟩
  · rintro ⟨r, hr, hra⟩
    have hm : normRow r ∈ pairs.map Prod.fst := by
      rw [hfst]
      exact List.mem_map_of_mem normRow hr
    obtain ⟨p0, hp0, hp0e⟩ := List.mem_map.mp hm
    have hsome : p0.2.isSome = true := by
      rw [hiff p0 hp0, hp0e]
      exact hra
    rw [keepRows_some pairs p0 hp0 hsome]
    rw [List.length_map, filterMap_pairs_length]
    calc pairs.countP (fun p => p.2.isSome)
        = pairs.countP (fun p => extOk p.1) :=
          List.countP_congr (fun p hp => by rw [hiff p hp])
      _ = (pairs.map Prod.fst).countP extOk := (List.countP_map extOk Prod.fst pairs).symm
      _ = (t.rows.map normRow).countP extOk := by rw [hfst]
      _ = t.rows.countP hasAmount := List.countP_map extOk normRow t.rows
  · intro hall
    have hnone : ∀ p ∈ pairs, p.2 = none := by
      intro p hp
      obtain ⟨r, hr, he⟩ := hmem p hp
      have hs : p.2.isSome = false := by
        rw [hiff p hp, he]
        exact hall r hr
      cases h2 : p.2 with
      | none => rfl
      | some a =>
        rw [h2] at hs
        simp at hs
    rw [keepRows_all_none pairs hnone]
    constructor
    · rw [List.length_map, List.length_map]
      have hlen := congrArg List.length hfst
      simpa using hlen
    · intro rec hrec
      simp only [List.mem_map] at hrec
      obtain ⟨q, hq, hqe⟩ := hrec
      obtain ⟨p, hp, hpe⟩ := hq
      rw [← hqe, ← hpe]
      rfl

theorem C1_witness :
    ∃ out, pipeline (fun _ => "Misc") tblC1 = Except.ok out ∧
      ((∃ r ∈ tblC1.rows, hasAmount r = true) → out.length = tblC1.rows.countP hasAmount) ∧
      ((∀ r ∈ tblC1.rows, hasAmount r = false) →
        out.length = tblC1.rows.length ∧ ∀ rec ∈ out, rec.amount = 0) :=
  C1_pipeline_amended (fun _ => "Misc") tblC1 (by decide)

/-- C9: every record the pipeline outputs carries the normalized
message of some upload row, the exported SMS cell is exactly that
normalized text, and whenever normalization changed the raw text the
exported value differs from the uploaded one. -/
theorem C9_export_normalized (classify : String → String) (t : InputTable)
    (out : List Record) (h : pipeline classify t = Except.ok out) :
    ∀ rec ∈ out, ∃ r ∈ t.rows, rec.sms = normalizeMsg r.sms ∧
      (exportRow rec).head? = some (Cell.str (normalizeMsg r.sms)) ∧
      (normalizeMsg r.sms ≠ r.sms → (exportRow rec).head? ≠ some (Cell.str r.sms)) := by
  intro rec hrec
  cases hext : extractAll (t.rows.map normRow) with
  | error e =>
    simp only [pipeline, hext] at h
    exact Except.noConfusion h
  | ok pairs =>
    simp only [pipeline, hext, Except.ok.injEq] at h
    subst h
    obtain ⟨hfst, _⟩ := extractAll_ok (t.rows.map normRow) pairs hext
    obtain ⟨q, hq, hqe⟩ := List.mem_map.mp hrec
    have hq1 : q.1 ∈ pairs.map Prod.fst := keepRows_fst_mem pairs q hq
    rw [hfst] at hq1
    obtain ⟨r, hr, hre⟩ := List.mem_map.mp hq1
    have hs : rec.sms = normalizeMsg r.sms := by
      rw [← hqe]
      show (mkRecord classify q).sms = normalizeMsg r.sms
      rw [show (mkRecord classify q).sms = q.1.sms from rfl, ← hre]
      rfl
    refine ⟨r, hr, hs, ?_, ?_⟩
    · rw [show (exportRow rec).head? = some (Cell.str rec.sms) from rfl, hs]
    · intro hne heq
      rw [show (exportRow rec).head? = some (Cell.str rec.sms) from rfl, hs] at heq
      injection heq with heq
      injection heq with heq
      exact hne heq

theorem C9_witness :
    ∃ r ∈ tblC9.rows, recC9.sms = normalizeMsg r.sms ∧
      (exportRow recC9).head? = some (Cell.str (normalizeMsg r.sms)) ∧
      (normalizeMsg r.sms ≠ r.sms → (exportRow recC9).head? ≠ some (Cell.str r.sms)) :=
  C9_export_normalized (fun _ => "Misc") tblC9 [recC9] rfl recC9 (by simp)

/-- C10: when no upload row yields an extractable amount, the pipeline
keeps every row with amount zero, so under every filter selection both
totals are zero and the guarded ratio block produces nothing. -/
theorem C10_degraded_zero (classify : String → String) (t : InputTable)
    (h : ∀ r ∈ t.rows, extract_amount (normalizeMsg r.sms) = Except.ok none) :
    ∃ out, pipeline classify t = Except.ok out ∧ out.length = t.rows.length ∧
      (∀ rec ∈ out, rec.amount = 0) ∧
      ∀ sel : Selection,
        total_spent (filterRecs sel out) = 0 ∧
        total_credited (filterRecs sel out) = 0 ∧
        advisory (total_spent (filterRecs sel out))
          (total_credited (filterRecs sel out)) = none := by
  have h2 : ∀ rn ∈ t.rows.map normRow, extract_amount rn.sms ≠ Except.error () := by
    intro rn hrn
    obtain ⟨r, hr, hrn⟩ := List.mem_map.mp hrn
    subst hrn
    rw [show (normRow r).sms = normalizeMsg r.sms from rfl, h r hr]
    exact fun hc => Except.noConfusion hc
  obtain ⟨pairs, hpairs⟩ := extractAll_total (t.rows.map normRow) h2
  obtain ⟨hfst, hvals⟩ := extractAll_ok (t.rows.map normRow) pairs hpairs
  have hnone : ∀ p ∈ pairs, p.2 = none := by
    intro p hp
    have hm : p.1 ∈ pairs.map Prod.fst := List.mem_map_of_mem Prod.fst hp
    rw [hfst] at hm
    obtain ⟨r, hr, he⟩ := List.mem_map.mp hm
    have hv := hvals p hp
    rw [← he, show (normRow r).sms = normalizeMsg r.sms from rfl, h r hr] at hv
    simpa using hv.symm
  have hzero : ∀ rec ∈ (keepRows pairs).map (mkRecord classify), rec.amount = 0 := by
    intro rec hrec
    rw [keepRows_all_none pairs hnone] at hrec
    simp only [List.mem_map] at hrec
    obtain ⟨q, hq, hqe⟩ := hrec
    obtain ⟨p, hp, hpe⟩ := hq
    rw [← hqe, ← hpe]
    rfl
  refine ⟨(keepRows pairs).map (mkRecord classify), by simp [pipeline, hpairs], ?_, hzero, ?_⟩
  · rw [keepRows_all_none pairs hnone, List.length_map, List.length_map]
    have hlen := congrArg List.length hfst
    simpa using hlen
  · intro sel
    have hsub : ∀ rec ∈ filterRecs sel ((keepRows pairs).map (mkRecord classify)),
        rec.amount = 0 := by
      intro rec hrec
      unfold filterRecs at hrec
      exact hzero rec (List.mem_filter.mp hrec).1
    have hts := total_spent_zero _ hsub
    have htc := total_credited_zero _ hsub
    refine ⟨hts, htc, ?_⟩
    rw [htc]
    simp [advisory]

theorem C10_witness :
    ∃ out, pipeline (fun _ => "Misc") tblC10 = Except.ok out ∧
      out.length = tblC10.rows.length ∧
      (∀ rec ∈ out, rec.amount = 0) ∧
      ∀ sel : Selection,
        total_spent (filterRecs sel out) = 0 ∧
        total_credited (filterRecs sel out) = 0 ∧
        advisory (total_spent (filterRecs sel out))
          (total_credited (filterRecs sel out)) = none :=
  C10_degraded_zero (fun _ => "Misc") tblC10 (by decide)

theorem takeWhile_all_app (p : Char → Bool) :
    ∀ (l1 l2 : List Char), (∀ c ∈ l1, p c = true) →
    (l1 ++ l2).takeWhile p = l1 ++ l2.takeWhile p := by
  intro l1
  induction l1 with
  | nil => intro l2 h; simp
  | cons a as ih =>
    intro l2 h
    have ha : p a = true := h a (List.mem_cons_self a as)
    simp [List.takeWhile_cons, ha, ih l2 (fun c hc => h c (List.mem_cons_of_mem a hc))]

theorem dropWhile_all_app (p : Char → Bool) :
    ∀ (l1 l2 : List Char), (∀ c ∈ l1, p c = true) →
    (l1 ++ l2).dropWhile p = l2.dropWhile p := by
  intro l1
  induction l1 with
  | nil => intro l2 h; simp
  | cons a as ih =>
    intro l2 h
    have ha : p a = true := h a (List.mem_cons_self a as)
    simp [List.dropWhile_cons, ha, ih l2 (fun c hc => h c (List.mem_cons_of_mem a hc))]

theorem not_ws_of_digitComma {c : Char} (h : digitComma c = true) :
    c.isWhitespace = false := by
  cases hw : c.isWhitespace with
  | false => rfl
  | true =>
    exfalso
    have hc := hw
    simp [Char.isWhitespace] at hc
    rcases hc with ((h1 | h1) | h1) | h1 <;> (subst h1; exact absurd h (by decide))

theorem not_digit_of_not_digitComma {c : Char} (h : digitComma c = false) :
    c.isDigit = false := by
  cases hd : c.isDigit with
  | false => rfl
  | true =>
    unfold digitComma at h
    rw [hd] at h
    simp at h

theorem matchMarker_tok : ∀ (mk : List Char), isMarkerTok mk = true →
    ∀ x, matchMarker (mk ++ x) = some x := by
  intro mk hmk x
  match mk, hmk with
  | [c], h =>
    have hc : c = '₹' := by simpa [isMarkerTok] using h
    subst hc
    simp [matchMarker]
  | [a, b, c], h =>
    have hcond : ((a.toLower == 'i' && b.toLower == 'n' && c.toLower == 'r') ||
        (a.toLower == 'a' && b.toLower == 'e' && c.toLower == 'd')) = true := by
      simpa [isMarkerTok] using h
    have ha : (a == '₹') = false := by
      cases hae : a == '₹' with
      | false => rfl
      | true =>
        have ha2 : a = '₹' := by simpa using hae
        subst ha2
        have h1 : (('₹'.toLower == 'i') : Bool) = false := by decide
        have h2 : (('₹'.toLower == 'a') : Bool) = false := by decide
        rw [h1, h2] at hcond
        simp at hcond
    simp [matchMarker, ha, hcond]

theorem searchGroup_skip : ∀ (pre z : List Char),
    (∀ n, n < pre.length → matchAt ((pre ++ z).drop n) = none) →
    searchGroup (pre ++ z) = searchGroup z := by
  intro pre
  induction pre with
  | nil => intro z _; rfl
  | cons c cs ih =>
    intro z h
    have h0 : matchAt (c :: (cs ++ z)) = none := by
      have := h 0 (by simp)
      simpa using this
    show searchGroup (c :: (cs ++ z)) = searchGroup z
    simp only [searchGroup, h0]
    exact ih z (fun n hn => by
      have := h (n + 1) (by simpa using Nat.succ_lt_succ hn)
      simpa using this)

theorem searchGroup_of_matchAt {l g : List Char} (hne : l ≠ []) (h : matchAt l = some g) :
    searchGroup l = some g := by
  cases l with
  | nil => exact absurd rfl hne
  | cons c rest => simp [searchGroup, h]

theorem grabGroup_spec (d1 dot post : List Char)
    (hd1c : ∀ c ∈ d1, digitComma c = true)
    (hdot : dot = [] ∨ ∃ d2, dot = '.' :: d2 ∧ ∀ c ∈ d2, c.isDigit = true)
    (hpost : ∀ c, post.head? = some c → digitComma c = false ∧ (c == '.') = false) :
    grabGroup (d1 ++ (dot ++ post)) = d1 ++ dot := by
  rcases hdot with hdot | ⟨d2, hdot, hd2⟩
  · subst hdot
    simp only [List.nil_append]
    unfold grabGroup
    rw [dropWhile_all_app digitComma d1 post hd1c,
      takeWhile_all_app digitComma d1 post hd1c]
    cases post with
    | nil => simp
    | cons c cs =>
      obtain ⟨h1, h2⟩ := hpost c rfl
      simp [List.dropWhile_cons, List.takeWhile_cons, h1, h2]
  · subst hdot
    unfold grabGroup
    have hdc : digitComma '.' = false := by decide
    rw [show d1 ++ (('.' :: d2) ++ post) = d1 ++ ('.' :: (d2 ++ post)) from by simp,
      dropWhile_all_app digitComma d1 ('.' :: (d2 ++ post)) hd1c,
      takeWhile_all_app digitComma d1 ('.' :: (d2 ++ post)) hd1c]
    simp only [List.dropWhile_cons, List.takeWhile_cons, hdc, Bool.false_eq_true,
      if_false]
    have hde : ('.' == '.') = true := by decide
    rw [hde]
    simp only [if_true]
    rw [takeWhile_all_app (fun x => x.isDigit) d2 post hd2]
    have hpt : post.takeWhile (fun x => x.isDigit) = [] := by
      cases post with
      | nil => rfl
      | cons c cs =>
        obtain ⟨h1, _⟩ := hpost c rfl
        simp [List.takeWhile_cons, not_digit_of_not_digitComma h1]
    rw [hpt]
    simp

theorem matchNum_spec (ws : List Char) (c : Char) (t : List Char)
    (hws : ws = [] ∨ ∃ w, ws = [w] ∧ w.isWhitespace = true)
    (hc : digitComma c = true) :
    matchNum (ws ++ c :: t) = some (grabGroup (c :: t)) := by
  rcases hws with h | ⟨w, hw, hwsp⟩
  · subst h
    simp only [List.nil_append]
    have hnw := not_ws_of_digitComma hc
    simp [matchNum, hnw, hc]
  · subst hw
    simp only [List.cons_append, List.nil_append]
    simp [matchNum, hwsp, hc]

theorem keepDigit_of_digit {c : Char} (h : c.isDigit = true) : (!(c == ',')) = true := by
  cases hc : c == ',' with
  | false => rfl
  | true =>
    have hc2 : c = ',' := by simpa using hc
    subst hc2
    exact absurd h (by decide)

theorem parseParts_spec (d1 dot : List Char)
    (hd1c : ∀ c ∈ d1, digitComma c = true)
    (hdig : ∃ c ∈ d1, c.isDigit = true)
    (hdot : dot = [] ∨ ∃ d2, dot = '.' :: d2 ∧ ∀ c ∈ d2, c.isDigit = true) :
    parseParts (d1 ++ dot) =
      Except.ok (d1.filter (fun c => !(c == ',')), fracPart dot) := by
  have hfilter : (d1 ++ dot).filter (fun c => !(c == ',')) =
      d1.filter (fun c => !(c == ',')) ++ dot := by
    rw [List.filter_append]
    congr 1
    rcases hdot with h | ⟨d2, hdot2, hd2⟩
    · subst h; rfl
    · subst hdot2
      apply List.filter_eq_self.mpr
      intro a ha
      rcases List.mem_cons.mp ha with ha | ha
      · subst ha; decide
      · exact keepDigit_of_digit (hd2 a ha)
  have hd1' : ∀ c ∈ d1.filter (fun c => !(c == ',')), c.isDigit = true := by
    intro c hc
    obtain ⟨hcm, hcp⟩ := List.mem_filter.mp hc
    have hdc := hd1c c hcm
    unfold digitComma at hdc
    rw [show (c == ',') = false from by simpa using hcp] at hdc
    simpa using hdc
  have hany : ((d1 ++ dot).filter (fun c => !(c == ','))).any (fun c => c.isDigit) = true := by
    rw [hfilter]
    obtain ⟨c0, hc0m, hc0d⟩ := hdig
    refine List.any_eq_true.mpr ⟨c0, ?_, hc0d⟩
    exact List.mem_append_left _ (List.mem_filter.mpr ⟨hc0m, keepDigit_of_digit hc0d⟩)
  unfold parseParts
  rw [if_pos hany, hfilter]
  have hip : (d1.filter (fun c => !(c == ',')) ++ dot).takeWhile (fun c => c.isDigit) =
      d1.filter (fun c => !(c == ',')) := by
    rw [takeWhile_all_app (fun c => c.isDigit) _ dot hd1']
    rcases hdot with h | ⟨d2, hdot2, _⟩
    · subst h; simp
    · subst hdot2
      have hd : (('.' : Char).isDigit) = false := by decide
      simp [List.takeWhile_cons, hd]
  have hfp : fracPart ((d1.filter (fun c => !(c == ',')) ++ dot).dropWhile
      (fun c => c.isDigit)) = fracPart dot := by
    rw [dropWhile_all_app (fun c => c.isDigit) _ dot hd1']
    rcases hdot with h | ⟨d2, hdot2, _⟩
    · subst h; rfl
    · subst hdot2
      have hd : (('.' : Char).isDigit) = false := by decide
      simp [List.dropWhile_cons, hd]
  rw [hip, hfp]

/-- C5 counterexample: in this string the first regex match is the
leading marker followed by a bare comma, whose captured group holds no
digit, so float() raises; the extractor therefore raises instead of
returning the value 5 of the first marker-and-numeric-literal
occurrence, contradicting the claim as stated. -/
theorem C5_counterexample :
    extract_amount ("inr , inr 5") = Except.error () ∧
    extract_amount ("inr , inr 5") ≠ Except.ok (some ((5 : Rat))) := by
  constructor
  · rfl
  · intro h
    rw [show extract_amount ("inr , inr 5") = Except.error () from rfl] at h
    exact Except.noConfusion h

/-- C5 amended: on every string made of a prefix in which no position
matches the regex, then a currency marker, an optional single
whitespace, a numeric literal of digits with optional comma separators
holding at least one digit and an optional dot-fraction, and a suffix
that does not extend the literal, the extractor returns that first
match's value with the separators stripped. -/
theorem C5_extract_amount_amended (pre mk ws d1 dot post : List Char)
    (hmk : isMarkerTok mk = true)
    (hws : ws = [] ∨ ∃ w, ws = [w] ∧ w.isWhitespace = true)
    (hd1 : d1 ≠ [])
    (hd1c : ∀ c ∈ d1, digitComma c = true)
    (hdig : ∃ c ∈ d1, c.isDigit = true)
    (hdot : dot = [] ∨ ∃ d2, dot = '.' :: d2 ∧ ∀ c ∈ d2, c.isDigit = true)
    (hpost : ∀ c, post.head? = some c → digitComma c = false ∧ (c == '.') = false)
    (hpre : ∀ n, n < pre.length →
      matchAt ((pre ++ (mk ++ (ws ++ (d1 ++ (dot ++ post))))).drop n) = none) :
    extract_amount ⟨pre ++ (mk ++ (ws ++ (d1 ++ (dot ++ post))))⟩ =
      Except.ok (some (decVal (d1.filter (fun c => !(c == ',')), fracPart dot))) := by
  cases d1 with
  | nil => exact absurd rfl hd1
  | cons c cs =>
    have hc : digitComma c = true := hd1c c (List.mem_cons_self c cs)
    have hgrab : grabGroup ((c :: cs) ++ (dot ++ post)) = (c :: cs) ++ dot :=
      grabGroup_spec (c :: cs) dot post hd1c hdot hpost
    have hnum : matchNum (ws ++ (c :: (cs ++ (dot ++ post)))) =
        some ((c :: cs) ++ dot) := by
      rw [show c :: (cs ++ (dot ++ post)) = (c :: cs) ++ (dot ++ post) from rfl]
      rw [show (c :: cs) ++ (dot ++ post) = c :: (cs ++ (dot ++ post)) from rfl]
      rw [matchNum_spec ws c (cs ++ (dot ++ post)) hws hc]
      rw [show c :: (cs ++ (dot ++ post)) = (c :: cs) ++ (dot ++ post) from rfl, hgrab]
    have hmatch : matchAt (mk ++ (ws ++ (c :: (cs ++ (dot ++ post))))) =
        some ((c :: cs) ++ dot) := by
      unfold matchAt
      rw [matchMarker_tok mk hmk (ws ++ (c :: (cs ++ (dot ++ post))))]
      simpa using hnum
    have hmkne : mk ≠ [] := by
      intro hmk0
      rw [hmk0] at hmk
      exact absurd hmk (by decide)
    have hzne : mk ++ (ws ++ (c :: (cs ++ (dot ++ post)))) ≠ [] := by
      cases mk with
      | nil => exact absurd rfl hmkne
      | cons m ms => simp
    have hsearch2 : searchGroup (mk ++ (ws ++ (c :: (cs ++ (dot ++ post))))) =
        some ((c :: cs) ++ dot) := searchGroup_of_matchAt hzne hmatch
    have hpre2 : ∀ n, n < pre.length →
        matchAt ((pre ++ (mk ++ (ws ++ (c :: (cs ++ (dot ++ post)))))).drop n) = none := by
      intro n hn
      have := hpre n hn
      simpa using this
    have hsearch : searchGroup (pre ++ (mk ++ (ws ++ (c :: (cs ++ (dot ++ post)))))) =
        some ((c :: cs) ++ dot) := by
      rw [searchGroup_skip pre (mk ++ (ws ++ (c :: (cs ++ (dot ++ post))))) hpre2]
      exact hsearch2
    have hparse : parseParts ((c :: cs) ++ dot) =
        Except.ok ((c :: cs).filter (fun c => !(c == ',')), fracPart dot) :=
      parseParts_spec (c :: cs) dot hd1c hdig hdot
    have htl : (⟨pre ++ (mk ++ (ws ++ ((c :: cs) ++ (dot ++ post))))⟩ : String).toList =
        pre ++ (mk ++ (ws ++ (c :: (cs ++ (dot ++ post))))) := by
      simp [String.toList]
    simp only [extract_amount, htl, hsearch, hparse]

theorem C5_witness :
    extract_amount ("paid inr 1,234.50 today") = Except.ok (some ((1234.5 : Rat))) := by
  have h := C5_extract_amount_amended (String.toList ("paid ")) (String.toList ("inr"))
      ([' ']) (String.toList ("1,234")) (String.toList (".50")) (String.toList (" today"))
      (by decide) (Or.inr ⟨' ', rfl, by decide⟩) (by decide) (by decide)
      (⟨'1', by decide, by decide⟩) (Or.inr ⟨String.toList ("50"), by decide, by decide⟩)
      (by decide) (by decide)
  have hstr : (⟨String.toList ("paid ") ++ (String.toList ("inr") ++ ([' '] ++
      (String.toList ("1,234") ++ (String.toList (".50") ++
        String.toList (" today")))))⟩ : String) = ("paid inr 1,234.50 today") := by decide
  rw [hstr] at h
  rw [h]
  have h1 : (String.toList ("1,234")).filter (fun c => !(c == ',')) =
      String.toList ("1234") := by decide
  have h2 : fracPart (String.toList (".50")) = String.toList ("50") := by decide
  rw [h1, h2]
  have h3 : natOfDigits (String.toList ("1234")) = 1234 := by decide
  have h4 : natOfDigits (String.toList ("50")) = 50 := by decide
  have h5 : (String.toList ("50")).length = 2 := by decide
  simp only [decVal, h3, h4, h5, Except.ok.injEq, Option.some.injEq]
  norm_num
